import Mathlib

/-!
Verification of the tree state-synchronization engine in
`src/js/tree/tree-node.ts` (tdesign-common).

The embedding is a shallow, functional model of the mutable node/store
structure:

* A `TNode` is a rose tree carrying the per-node identity and behavioural
  override flags (`checkable`, `activable`, `expandMutex`).  The JS field
  `children` can be an array, the sentinel `true` ("has children, not yet
  fetched") or `null`/`false`; this is encoded by `hasList` (the JS
  `Array.isArray(children)` test) and `unloaded` (the `children === true`
  test).  When `hasList = false` the `children` list is `[]` by convention.
* The four state maps (`checkedMap`, `expandedMap`, `activedMap`,
  `filterMap`) and the node index (`nodeMap`) are presence sets of
  identities, modelled as `List Nat` with JS `Map` set/delete/get
  membership semantics (`mset`, `mdel`, `mget`).
* Cached instance fields of node objects (`vmIsFirst`, `vmIsLast`, the
  cached `expanded` and `checked` flags) are modelled as store-level
  assoc lists keyed by identity (`fget`, `fset`), since in JS they live on
  the node objects that the store indexes.
* Methods that navigate via the `parent` back-pointer are modelled by
  locating the receiver in the root forest (`findPathList`); this is
  faithful under the structural well-formedness the store maintains
  (parent pointers consistent with child lists, identities unique).
-/

/-- JS `Map.get(v)` truthiness on a presence set. -/
def mget (m : List Nat) (v : Nat) : Bool := m.contains v

/-- JS `Map.set(v, true)` on a presence set: membership is idempotent. -/
def mset (m : List Nat) (v : Nat) : List Nat := if m.contains v then m else m ++ [v]

/-- JS `Map.delete(v)` on a presence set. -/
def mdel (m : List Nat) (v : Nat) : List Nat := m.filter (fun x => x ≠ v)

/-- Read a cached boolean instance field of the node object keyed by `v`
(the last write wins; absent means the field still holds its initial
`false`). -/
def fget (m : List (Nat × Bool)) (v : Nat) : Bool :=
  (((m.filter (fun p => p.1 = v)).getLast?).map Prod.snd).getD false

/-- Write a cached boolean instance field of the node object keyed by `v`. -/
def fset (m : List (Nat × Bool)) (v : Nat) (b : Bool) : List (Nat × Bool) := m ++ [(v, b)]

/-- The per-node data of `TreeNode`: the identity (`value`) and the
per-node behavioural overrides relevant to the verified operations. -/
structure NodeMeta where
  value : Nat
  checkable : Bool
  activable : Bool
  expandMutexF : Bool
  deriving DecidableEq, Repr

/-- A tree node: `hasList` models `Array.isArray(this.children)`,
`unloaded` models `this.children === true` (lazy sentinel); when
`hasList = false` the `children` list is `[]` by convention. -/
inductive TNode : Type where
  | mk (meta : NodeMeta) (hasList unloaded : Bool) (children : List TNode)

def TNode.meta : TNode → NodeMeta
  | .mk m _ _ _ => m

def TNode.value (n : TNode) : Nat := n.meta.value

def TNode.hasList : TNode → Bool
  | .mk _ h _ _ => h

def TNode.unloaded : TNode → Bool
  | .mk _ _ u _ => u

def TNode.kidsList : TNode → List TNode
  | .mk _ _ _ cs => cs

/-- `this.children === true`: lazy sentinel (no list, flagged unloaded). -/
def TNode.childrenTrue (n : TNode) : Bool := !n.hasList && n.unloaded

mutual
/-- `walk()`: the node itself followed by the walk of each child
(preorder); only an identity list is needed by the verified operations. -/
def walkValues : TNode → List Nat
  | .mk m h _ cs => m.value :: (if h then walkValuesL cs else [])
def walkValuesL : List TNode → List Nat
  | [] => []
  | t :: ts => walkValues t ++ walkValuesL ts
end

mutual
/-- Locate the node with identity `v` inside a node's subtree, returning
the chain of nodes from that node down to it (the node itself last).
This models navigation that the JS code performs through `parent`
back-pointers. -/
def findPathNode (v : Nat) : TNode → Option (List TNode)
  | .mk m h u cs =>
    if m.value = v then some [.mk m h u cs]
    else
      match (if h then findPathList v cs else none) with
      | some p => some (.mk m h u cs :: p)
      | none => none
/-- Locate the node with identity `v` in a forest (see `findPathNode`). -/
def findPathList (v : Nat) : List TNode → Option (List TNode)
  | [] => none
  | t :: ts =>
    match findPathNode v t with
    | some p => some p
    | none => findPathList v ts
end

mutual
/-- `isChecked(map?)` of a node whose ancestor identities (nearest first)
are `anc`: true when the identity is in the (possibly hypothetical)
checked map; else, in non-strict mode with a non-empty children array,
when every child is recursively checked; else, in non-strict mode, when
some ancestor identity is in the map.  The node-index membership test at
the top mirrors `tree.nodeMap.get(this.value)` and is re-done for every
recursive call, as in the source. -/
def isCheckedCore (strict : Bool) (nm cm : List Nat) (anc : List Nat) : TNode → Bool
  | .mk m h _ cs =>
    if mget nm m.value then
      if mget cm m.value then true
      else if h && cs.length > 0 && !strict then
        allCheckedList strict nm cm (m.value :: anc) cs
      else if !strict then anc.any (fun a => mget cm a)
      else false
    else false
/-- `children.every((node) => node.isChecked(checkedMap))`. -/
def allCheckedList (strict : Bool) (nm cm : List Nat) (anc : List Nat) : List TNode → Bool
  | [] => true
  | t :: ts =>
    isCheckedCore strict nm cm anc t && allCheckedList strict nm cm anc ts
end

mutual
/-- `isIndeterminate()` of a node with ancestor identities `anc`: a node
without a children array is never indeterminate; otherwise the children
are scanned in order, and the scan stops with `true` as soon as a child
is itself indeterminate or a child's checked value differs from the first
child's checked value (`childChecked` accumulator of the source). -/
def isIndetCore (strict : Bool) (nm cm : List Nat) (anc : List Nat) : TNode → Bool
  | .mk m h _ cs =>
    if h then isIndetList strict nm cm (m.value :: anc) none cs else false
/-- The `children.some(...)` scan with the `childChecked` accumulator:
`none` models the initial `childChecked === null`. -/
def isIndetList (strict : Bool) (nm cm : List Nat) (anc : List Nat) :
    Option Bool → List TNode → Bool
  | _, [] => false
  | first, t :: ts =>
    if isIndetCore strict nm cm anc t then true
    else
      match first with
      | none =>
        let cc := isCheckedCore strict nm cm anc t
        if cc ≠ cc then true else isIndetList strict nm cm anc (some cc) ts
      | some b =>
        let cc := isCheckedCore strict nm cm anc t
        if b ≠ cc then true else isIndetList strict nm cm anc (some b) ts
end

/-- The recognized store configuration options used by the verified
operations.  `hasFilter`/`hasLoad` model `typeof config.filter/load ===
'function'`; the filter predicate is abstracted as a predicate on the
node identity (the node view model is opaque to the core). -/
structure TreeConfig where
  checkStrictly : Bool
  expandMutex : Bool
  expandParent : Bool
  activeMultiple : Bool
  checkable : Bool
  activable : Bool
  hasFilter : Bool
  filter : Nat → Bool
  hasLoad : Bool

/-- The store state: root child list, node index, the four state maps,
and the tracked cached instance fields of the node objects (`vmIsFirst`,
`vmIsLast`, the cached `expanded` and `checked` flags).  Remaining cached
fields (`vmIsLeaf`, `level`, `visible`, `indeterminate`, ...) are not
tracked by the model. -/
structure Store where
  children : List TNode
  nodeMap : List Nat
  checkedMap : List Nat
  expandedMap : List Nat
  activedMap : List Nat
  filterMap : List Nat
  vmIsFirstM : List (Nat × Bool)
  vmIsLastM : List (Nat × Bool)
  expandedFM : List (Nat × Bool)
  checkedFM : List (Nat × Bool)

/-- `isCheckable()`: the store-wide flag OR'd with the per-node override. -/
def isCheckableQ (cfg : TreeConfig) (n : TNode) : Bool := cfg.checkable || n.meta.checkable

/-- `isActivable()`: the store-wide flag OR'd with the per-node override. -/
def isActivableQ (cfg : TreeConfig) (n : TNode) : Bool := cfg.activable || n.meta.activable

/-- `isExpandMutex()`: the store-wide flag OR'd with the per-node override. -/
def isExpandMutexQ (cfg : TreeConfig) (n : TNode) : Bool :=
  cfg.expandMutex || n.meta.expandMutexF

/-- `isExpanded()`: attached and present in the expanded map. -/
def isExpandedQ (nm em : List Nat) (v : Nat) : Bool := mget nm v && mget em v

/-- `getSiblings()` of a located node: its parent's children array, or
the root list for a root-level node (`revParents` is the parent chain,
nearest first). -/
def siblingListOf (roots : List TNode) (revParents : List TNode) : List TNode :=
  match revParents with
  | p :: _ => p.kidsList
  | [] => roots

/-- Locate identity `v` in the forest: the node and its parents (nearest
first). -/
def locate (roots : List TNode) (v : Nat) : Option (TNode × List TNode) :=
  match findPathList v roots with
  | none => none
  | some path =>
    match path.reverse with
    | [] => none
    | n :: revParents => some (n, revParents)

/-- `getVisible()`: `false` for an identity absent from the node index;
otherwise visible iff every parent is expanded or the configured filter
accepts the node.  Returns the visibility together with the filter map
as rewritten by the filter branch (match recorded, stale non-match
deleted). -/
def getVisibleOp (cfg : TreeConfig) (roots : List TNode) (nm em fm : List Nat) (v : Nat) :
    Bool × List Nat :=
  if mget nm v then
    match locate roots v with
    | some (_, revParents) =>
      let expandVisible := revParents.all (fun p => isExpandedQ nm em p.value)
      if cfg.hasFilter then
        let fv := cfg.filter v
        let fm2 := if fv then mset fm v else if mget fm v then mdel fm v else fm
        (expandVisible || fv, fm2)
      else (expandVisible, fm)
    | none => (false, fm)
  else (false, fm)

/-- `isFirst()` recomputed from the current structure: the node heads its
sibling list (parent's children, or the root list for a root-level
node). -/
def vmIsFirstCalc (roots : List TNode) (v : Nat) : Bool :=
  match locate roots v with
  | none => false
  | some (_, revParents) =>
    match (siblingListOf roots revParents).head? with
    | some s => s.value = v
    | none => false

/-- `isLast()` recomputed from the current structure. -/
def vmIsLastCalc (roots : List TNode) (v : Nat) : Bool :=
  match locate roots v with
  | none => false
  | some (_, revParents) =>
    match (siblingListOf roots revParents).getLast? with
    | some s => s.value = v
    | none => false

/-- `update()`: recompute the tracked cached fields of the node object
(`vmIsFirst`, `vmIsLast`, the cached `expanded` flag) and apply
`getVisible()`'s rewrite of the filter map.  The untracked cached fields
(`vmIsLeaf`, `level`, `actived`, `visible`) are also recomputed by the
source but have no bearing on the verified claims. -/
def updateNodeOp (cfg : TreeConfig) (st : Store) (v : Nat) : Store :=
  match locate st.children v with
  | none => st
  | some _ =>
    let gv := getVisibleOp cfg st.children st.nodeMap st.expandedMap st.filterMap v
    { st with
      vmIsFirstM := fset st.vmIsFirstM v (vmIsFirstCalc st.children v),
      vmIsLastM := fset st.vmIsLastM v (vmIsLastCalc st.children v),
      expandedFM := fset st.expandedFM v (isExpandedQ st.nodeMap st.expandedMap v),
      filterMap := gv.2 }

/-- `updateChecked()`: for a checkable node, recompute the cached checked
flag and, when the derived value is true, write the identity into the
live checked map; the entry is never deleted here.  (The indeterminate
cache is also recomputed by the source but is untracked.) -/
def updateCheckedOp (cfg : TreeConfig) (st : Store) (v : Nat) : Store :=
  match locate st.children v with
  | none => st
  | some (n, revParents) =>
    if isCheckableQ cfg n then
      let ck := isCheckedCore cfg.checkStrictly st.nodeMap st.checkedMap
        (revParents.map TNode.value) n
      { st with
        checkedFM := fset st.checkedFM v ck,
        checkedMap := if ck then mset st.checkedMap v else st.checkedMap }
    else st

/-- `clean()`: delete the identity from the activated, checked and
expanded maps and from the node index.  (The filter map is not touched
by the source.) -/
def cleanOp (st : Store) (v : Nat) : Store :=
  { st with
    activedMap := mdel st.activedMap v,
    checkedMap := mdel st.checkedMap v,
    expandedMap := mdel st.expandedMap v,
    nodeMap := mdel st.nodeMap v }

mutual
/-- Recurse `removeFromTreeList` into a node's children array. -/
def removeFromNode (v : Nat) : TNode → TNode
  | .mk m h u cs => .mk m h u (if h then removeFromTreeList v cs else cs)
/-- Splice the node with identity `v` out of its sibling list. -/
def removeFromTreeList (v : Nat) : List TNode → List TNode
  | [] => []
  | t :: ts =>
    if t.value = v then ts
    else removeFromNode v t :: removeFromTreeList v ts
end

/-- `updateParents()`: for each ancestor, nearest first, run `update()`
then `updateChecked()`. -/
def updateParentsOp (cfg : TreeConfig) (st : Store) (ancVals : List Nat) : Store :=
  ancVals.foldl (fun s a => updateCheckedOp cfg (updateNodeOp cfg s a) a) st

/-- `remove()`: splice the node out of its sibling list, `clean()` every
node of its subtree, `update()` the remaining siblings, then
`updateParents()`.  `tree.reflow()` rebuilds the flattened view and does
not change the modelled state. -/
def removeOp (cfg : TreeConfig) (st : Store) (v : Nat) : Store :=
  match findPathList v st.children with
  | none => st
  | some path =>
    match path.reverse with
    | [] => st
    | n :: revParents =>
      let subtreeVals := walkValues n
      let ancVals := revParents.map TNode.value
      let sibVals :=
        ((siblingListOf st.children revParents).filter (fun s => s.value ≠ v)).map TNode.value
      let st1 := subtreeVals.foldl cleanOp
        { st with children := removeFromTreeList v st.children }
      let st2 := sibVals.foldl (fun s w => updateNodeOp cfg s w) st1
      updateParentsOp cfg st2 ancVals

/-- JS `siblings.splice(index, 0, node)`: an index at or past the end
appends. -/
def spliceIn (l : List TNode) (i : Nat) (x : TNode) : List TNode := l.take i ++ x :: l.drop i

mutual
/-- Relink a subtree under the node with identity `pV`: when the parent
has no children array yet, a fresh array is created (`parentNode.children
= []`) before the push. -/
def insertUnderNode (pV : Nat) (idx : Option Nat) (x : TNode) : TNode → TNode
  | .mk m h u cs =>
    if m.value = pV then
      let cur := if h then cs else []
      let nk := match idx with
        | some i => spliceIn cur i x
        | none => cur ++ [x]
      .mk m true u nk
    else .mk m h u (if h then insertUnderList pV idx x cs else cs)
/-- Map `insertUnderNode` across a forest. -/
def insertUnderList (pV : Nat) (idx : Option Nat) (x : TNode) : List TNode → List TNode
  | [] => []
  | t :: ts => insertUnderNode pV idx x t :: insertUnderList pV idx x ts
end

/-- `appendTo(tree, parent, index?)`, returning `Except`: `.ok` is a
normal return carrying the final store, `.error` is a thrown exception
carrying the store as observable at the throw.

* a `parent` that cannot be located models the `!parentNode` early return;
* the cycle guard walks `parent`'s ancestor chain for the receiver's
  identity;
* the original-position guard reads `parentNode.children[targetIndex]`
  and throws (`.error`, state untouched) when no node exists at that
  index, since the source dereferences `.value` on `undefined`;
* past the guards the receiver is `remove()`d and relinked; relinking a
  node under itself creates a cycle on which the subsequent `walk()`
  recurses forever (a stack-overflow exception): `.error` carrying the
  post-`remove()` state;
* otherwise the subtree is re-registered in the node index (inheriting
  the cached `expanded` flag into the expanded map) and the new parent's
  subtree is recomputed (`update()` + `updateChecked()`). -/
def appendToOp (cfg : TreeConfig) (st : Store) (selfV pV : Nat) (index : Option Nat) :
    Except Store Store :=
  match findPathList pV st.children with
  | none => .ok st
  | some ppath =>
    match ppath.reverse with
    | [] => .ok st
    | pNode :: pRevParents =>
      if (pRevParents.map TNode.value).contains selfV then .ok st
      else
        let posGuard : Option (Except Store Store) :=
          if pNode.hasList then
            match pNode.kidsList.get? (index.getD 0) with
            | none => some (.error st)
            | some c => if c.value = selfV then some (.ok st) else none
          else none
        match posGuard with
        | some r => r
        | none =>
          match findPathList selfV st.children with
          | none => .ok st
          | some spath =>
            match spath.reverse with
            | [] => .ok st
            | selfNode :: _ =>
              let st1 := removeOp cfg st selfV
              if pV = selfV then .error st1
              else
                let st2 := { st1 with
                  children := insertUnderList pV index selfNode st1.children }
                let st3 := (walkValues selfNode).foldl (fun s w =>
                  let s1 := { s with nodeMap := mset s.nodeMap w }
                  if fget s1.expandedFM w then
                    { s1 with expandedMap := mset s1.expandedMap w }
                  else s1) st2
                let pSubVals : List Nat :=
                  match findPathList pV st3.children with
                  | some pp =>
                    match pp.reverse with
                    | pn :: _ => walkValues pn
                    | [] => []
                  | none => []
                .ok (pSubVals.foldl
                  (fun s w => updateCheckedOp cfg (updateNodeOp cfg s w) w) st3)

/-- The synchronous face of `loadChildren()`: with no configured `load`
function nothing at all happens.  With one configured, the fetch is
asynchronous (the only suspension point of the engine) and outside this
synchronous model: `none`. -/
def loadChildrenOp (cfg : TreeConfig) (st : Store) (v : Nat) (loading : Bool) :
    Option Store :=
  match locate st.children v with
  | none => some st
  | some (n, _) =>
    if n.childrenTrue && !loading then
      if cfg.hasLoad then none else some st
    else some st

/-- One element of the `shouldExpandNodes` candidate list: the candidate
node paired with its parent (`none` for a root-level candidate). -/
def pathPairs : Option TNode → List TNode → List (TNode × Option TNode)
  | _, [] => []
  | par, x :: xs => (x, par) :: pathPairs (some x) xs

/-- `getSiblings()` of a candidate, as identities: the parent's children
array (or the root list for a root-level node), the candidate included. -/
def expandSibVals (roots : List TNode) (pp : TNode × Option TNode) : List Nat :=
  (match pp.2 with
   | some p => p.kidsList
   | none => roots).map TNode.value

/-- The governing mutex flag of a candidate: its parent's
`isExpandMutex()` when it has a parent, else the store-wide
`config.expandMutex`. -/
def govMutexOf (cfg : TreeConfig) (pp : TNode × Option TNode) : Bool :=
  match pp.2 with
  | some p => isExpandMutexQ cfg p
  | none => cfg.expandMutex

/-- One candidate of the expansion loop: when the governing mutex flag is
set, every sibling's entry is deleted before the candidate's own entry is
added. -/
def expandStep (cfg : TreeConfig) (roots : List TNode) (m : List Nat)
    (pp : TNode × Option TNode) : List Nat :=
  let m1 := if govMutexOf cfg pp then (expandSibVals roots pp).foldl mdel m else m
  mset m1 pp.1.value

/-- The `shouldExpandNodes` candidate list: the node itself, then — when
`expandParent` is configured — its ancestors nearest first, each paired
with its parent. -/
def candsOf (cfg : TreeConfig) (path : List TNode) : List (TNode × Option TNode) :=
  match (pathPairs none path).reverse with
  | [] => []
  | selfPair :: revRest => if cfg.expandParent then selfPair :: revRest else [selfPair]

/-- The map rewrite of `setExpanded`: collapsing deletes the node's own
entry; expanding processes the candidates through `expandStep`. -/
def setExpandedMapOp (cfg : TreeConfig) (roots : List TNode) (path : List TNode)
    (expanded : Bool) (m : List Nat) : List Nat :=
  match (pathPairs none path).reverse with
  | [] => m
  | selfPair :: _ =>
    if expanded then
      (candsOf cfg path).foldl (fun acc pp => expandStep cfg roots acc pp) m
    else mdel m selfPair.1.value

/-- `setExpanded(expanded, {directly})`: the rewrite is computed against
a copy of the expanded map unless `directly` is set, in which case it is
committed and `afterExpanded()`/`update()`/`updateChildren()` run (the
lazy fetch possibly started by `afterExpanded` is asynchronous and
outside this synchronous model). -/
def setExpandedOp (cfg : TreeConfig) (st : Store) (v : Nat) (expanded directly : Bool) :
    Store :=
  match findPathList v st.children with
  | none => st
  | some path =>
    match path.reverse with
    | [] => st
    | n :: _ =>
      let m2 := setExpandedMapOp cfg st.children path expanded st.expandedMap
      if directly then
        let st1 := { st with expandedMap := m2 }
        let st2 := updateNodeOp cfg st1 v
        let st3 := updateNodeOp cfg st2 v
        ((walkValues n).drop 1).foldl
          (fun s w => updateCheckedOp cfg (updateNodeOp cfg s w) w) st3
      else st

/-- `setActived(actived, {directly})`: guarded by `isActivable()`; when
activating with multi-activation disabled the whole map is cleared
first.  The rewrite is committed (followed by `update()`) only when
`directly` is set. -/
def setActivedOp (cfg : TreeConfig) (st : Store) (v : Nat) (actived directly : Bool) :
    Store :=
  match findPathList v st.children with
  | none => st
  | some path =>
    match path.reverse with
    | [] => st
    | n :: _ =>
      let m2 :=
        if isActivableQ cfg n then
          if actived then mset (if cfg.activeMultiple then st.activedMap else []) v
          else mdel st.activedMap v
        else st.activedMap
      if directly then updateNodeOp cfg { st with activedMap := m2 } v
      else st

/-- The map rewrite of `setChecked`: guarded by `isCheckable()` and by
the desired value differing from the current derived state; strict mode
touches only the node's own entry; non-strict mode writes/deletes the
entry of every node of the subtree (`walk()`), then deletes every
ancestor's entry. -/
def setCheckedMapCore (cfg : TreeConfig) (nm m : List Nat) (n : TNode)
    (ancVals : List Nat) (checked : Bool) : List Nat :=
  if isCheckableQ cfg n &&
      checked ≠ isCheckedCore cfg.checkStrictly nm m ancVals n then
    if cfg.checkStrictly then
      if checked then mset m n.value else mdel m n.value
    else
      let m1 := (walkValues n).foldl
        (fun acc w => if checked then mset acc w else mdel acc w) m
      ancVals.foldl (fun acc a => mdel acc a) m1
  else m

/-- Modelled from the spec: `TreeStore.getRelatedNodes` (the store side
is not under `src/`).  Propagation covers the closure of the changed
identity: its subtree together with the nodes depending on it, i.e. its
ancestors (§4.2: "{subtree} ∪ {all nodes dependent on the closure,
i.e., ancestors ...}"). -/
def getRelatedNodes (roots : List TNode) (v : Nat) : List Nat :=
  match findPathList v roots with
  | none => []
  | some path =>
    match path.reverse with
    | [] => []
    | n :: revParents => walkValues n ++ revParents.map TNode.value

/-- `setChecked(checked, {directly})`: the rewrite is computed against a
copy of the checked map unless `directly` is set, in which case it is
committed and `updateChecked()` propagation runs (only the node itself in
strict mode, the related closure otherwise). -/
def setCheckedOp (cfg : TreeConfig) (st : Store) (v : Nat) (checked directly : Bool) :
    Store :=
  match findPathList v st.children with
  | none => st
  | some path =>
    match path.reverse with
    | [] => st
    | n :: revParents =>
      let m2 := setCheckedMapCore cfg st.nodeMap st.checkedMap n
        (revParents.map TNode.value) checked
      if directly then
        let st1 := { st with checkedMap := m2 }
        if cfg.checkStrictly then updateCheckedOp cfg st1 v
        else (getRelatedNodes st1.children v).foldl
          (fun s w => updateCheckedOp cfg s w) st1
      else st

/-! ### Generic lemmas about the presence-set and cached-field operations -/

theorem mget_true_iff {m : List Nat} {x : Nat} : mget m x = true ↔ x ∈ m := by
  simp [mget]

theorem mget_mset_true {m : List Nat} {v x : Nat} :
    mget (mset m v) x = true ↔ (mget m x = true ∨ x = v) := by
  simp only [mget_true_iff, mset]
  split
  · next hv =>
    constructor
    · exact fun h => Or.inl h
    · rintro (h | rfl)
      · exact h
      · simpa using hv
  · simp [List.mem_append]

theorem mget_mdel_true {m : List Nat} {v x : Nat} :
    mget (mdel m v) x = true ↔ (mget m x = true ∧ x ≠ v) := by
  simp [mget_true_iff, mdel]

theorem mget_mset_of_ne {m : List Nat} {v x : Nat} (h : x ≠ v) :
    mget (mset m v) x = mget m x := by
  cases hx : mget m x
  · cases hx2 : mget (mset m v) x
    · rfl
    · rcases mget_mset_true.mp hx2 with h1 | h1
      · rw [hx] at h1; exact h1.symm
      · exact absurd h1 h
  · exact (mget_mset_true.mpr (Or.inl hx))

theorem mget_mdel_of_ne {m : List Nat} {v x : Nat} (h : x ≠ v) :
    mget (mdel m v) x = mget m x := by
  cases hx : mget m x
  · cases hx2 : mget (mdel m v) x
    · rfl
    · have := (mget_mdel_true.mp hx2).1
      rw [hx] at this
      exact this.symm
  · exact mget_mdel_true.mpr ⟨hx, h⟩

theorem mget_mdel_self {m : List Nat} {v : Nat} : mget (mdel m v) v = false := by
  cases h : mget (mdel m v) v
  · rfl
  · exact absurd rfl (mget_mdel_true.mp h).2

theorem mget_mset_self {m : List Nat} {v : Nat} : mget (mset m v) v = true :=
  mget_mset_true.mpr (Or.inr rfl)

theorem foldl_mset_mem {l m : List Nat} {x : Nat} :
    mget (l.foldl mset m) x = true ↔ (mget m x = true ∨ x ∈ l) := by
  induction l generalizing m with
  | nil => simp
  | cons a t ih =>
    simp only [List.foldl_cons, ih, mget_mset_true, List.mem_cons]
    tauto

theorem foldl_mdel_mem {l m : List Nat} {x : Nat} :
    mget (l.foldl mdel m) x = true ↔ (mget m x = true ∧ x ∉ l) := by
  induction l generalizing m with
  | nil => simp
  | cons a t ih =>
    simp only [List.foldl_cons, ih, mget_mdel_true, List.mem_cons]
    tauto

theorem fget_fset_self {m : List (Nat × Bool)} {k : Nat} {b : Bool} :
    fget (fset m k b) k = b := by
  simp [fget, fset, List.filter_append]

theorem fget_fset_of_ne {m : List (Nat × Bool)} {k x : Nat} {b : Bool} (h : x ≠ k) :
    fget (fset m k b) x = fget m x := by
  have : (fun p : Nat × Bool => decide (p.1 = x)) (k, b) = false := by
    simp; exact fun hk => h hk.symm
  simp [fget, fset, List.filter_append, this]

/-! ### Frame lemmas for the propagation operators -/

theorem updateNodeOp_children (cfg : TreeConfig) (s : Store) (u : Nat) :
    (updateNodeOp cfg s u).children = s.children := by
  unfold updateNodeOp; split <;> rfl

theorem updateNodeOp_nodeMap (cfg : TreeConfig) (s : Store) (u : Nat) :
    (updateNodeOp cfg s u).nodeMap = s.nodeMap := by
  unfold updateNodeOp; split <;> rfl

theorem updateNodeOp_checkedMap (cfg : TreeConfig) (s : Store) (u : Nat) :
    (updateNodeOp cfg s u).checkedMap = s.checkedMap := by
  unfold updateNodeOp; split <;> rfl

theorem updateNodeOp_expandedMap (cfg : TreeConfig) (s : Store) (u : Nat) :
    (updateNodeOp cfg s u).expandedMap = s.expandedMap := by
  unfold updateNodeOp; split <;> rfl

theorem updateNodeOp_activedMap (cfg : TreeConfig) (s : Store) (u : Nat) :
    (updateNodeOp cfg s u).activedMap = s.activedMap := by
  unfold updateNodeOp; split <;> rfl

theorem updateNodeOp_checkedFM (cfg : TreeConfig) (s : Store) (u : Nat) :
    (updateNodeOp cfg s u).checkedFM = s.checkedFM := by
  unfold updateNodeOp; split <;> rfl

theorem updateNodeOp_vmIsFirstM_of_ne (cfg : TreeConfig) (s : Store) (u x : Nat)
    (h : x ≠ u) :
    fget (updateNodeOp cfg s u).vmIsFirstM x = fget s.vmIsFirstM x := by
  unfold updateNodeOp
  split
  · rfl
  · exact fget_fset_of_ne h

theorem updateNodeOp_vmIsLastM_of_ne (cfg : TreeConfig) (s : Store) (u x : Nat)
    (h : x ≠ u) :
    fget (updateNodeOp cfg s u).vmIsLastM x = fget s.vmIsLastM x := by
  unfold updateNodeOp
  split
  · rfl
  · exact fget_fset_of_ne h

theorem updateNodeOp_vmIsFirstM_self (cfg : TreeConfig) (s : Store) (u : Nat)
    (h : locate s.children u ≠ none) :
    fget (updateNodeOp cfg s u).vmIsFirstM u = vmIsFirstCalc s.children u := by
  unfold updateNodeOp
  split
  · next heq => exact absurd heq h
  · exact fget_fset_self

theorem updateNodeOp_vmIsLastM_self (cfg : TreeConfig) (s : Store) (u : Nat)
    (h : locate s.children u ≠ none) :
    fget (updateNodeOp cfg s u).vmIsLastM u = vmIsLastCalc s.children u := by
  unfold updateNodeOp
  split
  · next heq => exact absurd heq h
  · exact fget_fset_self

theorem getVisibleOp_filterMap_of_ne (cfg : TreeConfig) (roots : List TNode)
    (nm em fm : List Nat) (v x : Nat) (h : x ≠ v) :
    mget (getVisibleOp cfg roots nm em fm v).2 x = mget fm x := by
  unfold getVisibleOp
  split
  · split
    · dsimp only
      split
      · split
        · exact mget_mset_of_ne h
        · split
          · exact mget_mdel_of_ne h
          · rfl
      · rfl
    · rfl
  · rfl

theorem updateNodeOp_filterMap_of_ne (cfg : TreeConfig) (s : Store) (u x : Nat)
    (h : x ≠ u) :
    mget (updateNodeOp cfg s u).filterMap x = mget s.filterMap x := by
  unfold updateNodeOp
  split
  · rfl
  · exact getVisibleOp_filterMap_of_ne cfg s.children s.nodeMap s.expandedMap s.filterMap u x h

theorem updateCheckedOp_children (cfg : TreeConfig) (s : Store) (u : Nat) :
    (updateCheckedOp cfg s u).children = s.children := by
  unfold updateCheckedOp
  split
  · rfl
  · split <;> rfl

theorem updateCheckedOp_nodeMap (cfg : TreeConfig) (s : Store) (u : Nat) :
    (updateCheckedOp cfg s u).nodeMap = s.nodeMap := by
  unfold updateCheckedOp
  split
  · rfl
  · split <;> rfl

theorem updateCheckedOp_expandedMap (cfg : TreeConfig) (s : Store) (u : Nat) :
    (updateCheckedOp cfg s u).expandedMap = s.expandedMap := by
  unfold updateCheckedOp
  split
  · rfl
  · split <;> rfl

theorem updateCheckedOp_activedMap (cfg : TreeConfig) (s : Store) (u : Nat) :
    (updateCheckedOp cfg s u).activedMap = s.activedMap := by
  unfold updateCheckedOp
  split
  · rfl
  · split <;> rfl

theorem updateCheckedOp_filterMap (cfg : TreeConfig) (s : Store) (u : Nat) :
    (updateCheckedOp cfg s u).filterMap = s.filterMap := by
  unfold updateCheckedOp
  split
  · rfl
  · split <;> rfl

theorem updateCheckedOp_vmIsFirstM (cfg : TreeConfig) (s : Store) (u : Nat) :
    (updateCheckedOp cfg s u).vmIsFirstM = s.vmIsFirstM := by
  unfold updateCheckedOp
  split
  · rfl
  · split <;> rfl

theorem updateCheckedOp_vmIsLastM (cfg : TreeConfig) (s : Store) (u : Nat) :
    (updateCheckedOp cfg s u).vmIsLastM = s.vmIsLastM := by
  unfold updateCheckedOp
  split
  · rfl
  · split <;> rfl

theorem updateCheckedOp_checkedMap_of_ne (cfg : TreeConfig) (s : Store) (u x : Nat)
    (h : x ≠ u) :
    mget (updateCheckedOp cfg s u).checkedMap x = mget s.checkedMap x := by
  unfold updateCheckedOp
  split
  · rfl
  · split
    · show mget (if _ then mset s.checkedMap u else s.checkedMap) x = _
      split
      · exact mget_mset_of_ne h
      · rfl
    · rfl

theorem updateCheckedOp_checkedMap_mono (cfg : TreeConfig) (s : Store) (u x : Nat)
    (h : mget s.checkedMap x = true) :
    mget (updateCheckedOp cfg s u).checkedMap x = true := by
  unfold updateCheckedOp
  split
  · exact h
  · split
    · show mget (if _ then mset s.checkedMap u else s.checkedMap) x = true
      split
      · exact mget_mset_true.mpr (Or.inl h)
      · exact h
    · exact h

/-! ### Claim C8 -/

/-- C8: for every node and desired value, `setChecked`, `setExpanded` and
`setActived` invoked with `directly = false` (the default) leave the
store's live checked, expanded and activated maps — indeed the whole
store state — unchanged: the rewrite is computed against a copy of the
relevant map (`setCheckedMapCore`, `setExpandedMapOp`, the activated
rewrite) and only the hypothetical result list is returned, never
committed. -/
theorem c8_preview_is_frame (cfg : TreeConfig) (st : Store) (v : Nat) (b : Bool) :
    setCheckedOp cfg st v b false = st ∧
    setExpandedOp cfg st v b false = st ∧
    setActivedOp cfg st v b false = st := by
  refine ⟨?_, ?_, ?_⟩
  · unfold setCheckedOp
    split
    · rfl
    · split
      · rfl
      · simp
  · unfold setExpandedOp
    split
    · rfl
    · split
      · rfl
      · simp
  · unfold setActivedOp
    split
    · rfl
    · split
      · rfl
      · simp

/-! ### Claim C6 -/

/-- C6: `getVisible` returns `false` when the identity is absent from the
node index; for an attached node it returns true iff every ancestor is
derived-expanded (vacuously true for a root-level node) OR the
configured filter predicate accepts the node; a filter match makes the
node visible even under a collapsed ancestor. -/
theorem c6_getVisible_characterization (cfg : TreeConfig) (roots : List TNode)
    (nm em fm : List Nat) (v : Nat) :
    (mget nm v = false → (getVisibleOp cfg roots nm em fm v).1 = false) ∧
    (∀ n revParents, mget nm v = true → locate roots v = some (n, revParents) →
      (getVisibleOp cfg roots nm em fm v).1 =
        (revParents.all (fun p => isExpandedQ nm em p.value) ||
          (cfg.hasFilter && cfg.filter v))) := by
  constructor
  · intro h
    unfold getVisibleOp
    rw [h]
    simp
  · intro n revParents h hloc
    unfold getVisibleOp
    rw [h, hloc]
    dsimp only
    cases hf : cfg.hasFilter
    · simp
    · simp

def rootsC6 : List TNode :=
  [TNode.mk ⟨1, false, false, false⟩ true false
    [TNode.mk ⟨2, false, false, false⟩ false false [],
     TNode.mk ⟨3, false, false, false⟩ false false []]]

def cfgC6 : TreeConfig :=
  ⟨false, false, false, false, false, false, true, fun x => x == 2, false⟩

/-- C6 witness: with a filter matching node 2 only and node 1 (the common
ancestor) collapsed, node 2 is visible and its sibling 3 is not. -/
theorem c6_getVisible_witness :
    mget [1, 2, 3] 2 = true ∧
    (getVisibleOp cfgC6 rootsC6 [1, 2, 3] [] [] 2).1 = true ∧
    (getVisibleOp cfgC6 rootsC6 [1, 2, 3] [] [] 3).1 = false := by
  refine ⟨by decide, ?_, ?_⟩
  · rw [(c6_getVisible_characterization cfgC6 rootsC6 [1, 2, 3] [] [] 2).2
      (TNode.mk ⟨2, false, false, false⟩ false false [])
      [TNode.mk ⟨1, false, false, false⟩ true false
        [TNode.mk ⟨2, false, false, false⟩ false false [],
         TNode.mk ⟨3, false, false, false⟩ false false []]]
      (by decide) rfl]
    decide
  · rw [(c6_getVisible_characterization cfgC6 rootsC6 [1, 2, 3] [] [] 3).2
      (TNode.mk ⟨3, false, false, false⟩ false false [])
      [TNode.mk ⟨1, false, false, false⟩ true false
        [TNode.mk ⟨2, false, false, false⟩ false false [],
         TNode.mk ⟨3, false, false, false⟩ false false []]]
      (by decide) rfl]
    decide

/-! ### Claim C1 -/

theorem allCheckedList_eq_all (strict : Bool) (nm cm anc : List Nat) (l : List TNode) :
    allCheckedList strict nm cm anc l =
      l.all (fun c => isCheckedCore strict nm cm anc c) := by
  induction l with
  | nil => rfl
  | cons t ts ih => simp [allCheckedList, ih]

/-- C1 (amended): for a node whose identity is in the node index,
`isChecked` is true iff its identity is in the given map; or, non-strict
with a non-empty children array, every child recursively satisfies
`isChecked`; or, non-strict and *not* having a non-empty children array
(no array at all, or an empty one), some ancestor's identity is in the
map.  Strict mode reduces to map membership. -/
theorem isCheckedCore_mk (strict : Bool) (nm cm anc : List Nat) (m : NodeMeta)
    (hL u : Bool) (cs : List TNode) :
    isCheckedCore strict nm cm anc (.mk m hL u cs) =
      (if mget nm m.value then
        if mget cm m.value then true
        else if hL && cs.length > 0 && !strict then
          allCheckedList strict nm cm (m.value :: anc) cs
        else if !strict then anc.any (fun a => mget cm a)
        else false
      else false) := rfl

theorem c1_isChecked_attached (strict : Bool) (nm cm anc : List Nat) (n : TNode)
    (h : mget nm n.value = true) :
    isCheckedCore strict nm cm anc n =
      (mget cm n.value ||
        (!strict && (n.hasList && n.kidsList.length > 0) &&
          n.kidsList.all (fun c => isCheckedCore strict nm cm (n.value :: anc) c)) ||
        (!strict && !(n.hasList && n.kidsList.length > 0) &&
          anc.any (fun a => mget cm a))) := by
  cases n with
  | mk m hL u cs =>
    have h' : mget nm m.value = true := h
    simp only [TNode.value, TNode.meta, TNode.hasList, TNode.kidsList]
    rw [isCheckedCore_mk, allCheckedList_eq_all, h']
    cases hcm : mget cm m.value
    · cases strict
      · cases hL
        · simp
        · by_cases hlen : cs.length > 0
          · simp [hlen]
          · simp [hlen]
      · simp
    · simp

def nodeC1 : TNode := TNode.mk ⟨2, false, false, false⟩ true false []

/-- C1 counterexample: an attached node with an *empty* children array
(reachable by removing the last child) whose ancestor is in the checked
map.  `isChecked` derives `true` from the ancestor, while the claim's
reading — ancestor derivation only "with no children list" — yields
`false`: the claimed equivalence is refuted. -/
theorem c1_counterexample :
    ¬ (isCheckedCore false [1, 2] [1] [1] nodeC1 =
        (mget [1] 2 ||
          (nodeC1.hasList && nodeC1.kidsList.length > 0 &&
            nodeC1.kidsList.all (fun c => isCheckedCore false [1, 2] [1] [2, 1] c)) ||
          (!nodeC1.hasList && [1].any (fun a => mget [1] a)))) := by decide

/-- C1 witness: the amended characterization applied to the same node;
both sides evaluate to `true` via the ancestor branch. -/
theorem c1_witness :
    mget [1, 2] (TNode.value nodeC1) = true ∧
    isCheckedCore false [1, 2] [1] [1] nodeC1 = true :=
  ⟨by decide, by
    rw [c1_isChecked_attached false [1, 2] [1] [1] nodeC1 (by decide)]
    decide⟩

/-! ### Claim C7 -/

theorem isIndetCore_mk (strict : Bool) (nm cm anc : List Nat) (m : NodeMeta)
    (hL u : Bool) (cs : List TNode) :
    isIndetCore strict nm cm anc (.mk m hL u cs) =
      (if hL then isIndetList strict nm cm (m.value :: anc) none cs else false) := rfl

theorem isIndetList_cons_some (strict : Bool) (nm cm anc : List Nat) (b : Bool)
    (t : TNode) (ts : List TNode) :
    isIndetList strict nm cm anc (some b) (t :: ts) =
      (if isIndetCore strict nm cm anc t then true
       else if b ≠ isCheckedCore strict nm cm anc t then true
       else isIndetList strict nm cm anc (some b) ts) := rfl

theorem isIndetList_cons_none (strict : Bool) (nm cm anc : List Nat)
    (t : TNode) (ts : List TNode) :
    isIndetList strict nm cm anc none (t :: ts) =
      (if isIndetCore strict nm cm anc t then true
       else isIndetList strict nm cm anc
         (some (isCheckedCore strict nm cm anc t)) ts) := by
  show (if isIndetCore strict nm cm anc t then true
        else if isCheckedCore strict nm cm anc t ≠ isCheckedCore strict nm cm anc t then true
        else isIndetList strict nm cm anc (some (isCheckedCore strict nm cm anc t)) ts) = _
  simp

theorem isIndetList_some_iff (strict : Bool) (nm cm anc : List Nat) (b : Bool)
    (l : List TNode) :
    isIndetList strict nm cm anc (some b) l = true ↔
      (∃ c ∈ l, isIndetCore strict nm cm anc c = true) ∨
      (∃ c ∈ l, isCheckedCore strict nm cm anc c ≠ b) := by
  induction l with
  | nil => simp [isIndetList]
  | cons t ts ih =>
    rw [isIndetList_cons_some]
    by_cases hind : isIndetCore strict nm cm anc t = true
    · simp only [hind, if_true]
      constructor
      · intro
        exact Or.inl ⟨t, List.mem_cons_self t ts, hind⟩
      · intro
        trivial
    · rw [if_neg hind]
      by_cases hne : b ≠ isCheckedCore strict nm cm anc t
      · rw [if_pos hne]
        constructor
        · intro
          exact Or.inr ⟨t, List.mem_cons_self t ts, Ne.symm hne⟩
        · intro
          trivial
      · push_neg at hne
        rw [if_neg (by simp [hne])]
        rw [ih]
        constructor
        · rintro (⟨c, hc, h⟩ | ⟨c, hc, h⟩)
          · exact Or.inl ⟨c, List.mem_cons_of_mem t hc, h⟩
          · exact Or.inr ⟨c, List.mem_cons_of_mem t hc, h⟩
        · rintro (⟨c, hc, h⟩ | ⟨c, hc, h⟩)
          · rcases List.mem_cons.mp hc with rfl | hc'
            · exact absurd h hind
            · exact Or.inl ⟨c, hc', h⟩
          · rcases List.mem_cons.mp hc with rfl | hc'
            · exact absurd h (by rw [hne]; simp)
            · exact Or.inr ⟨c, hc', h⟩

/-- C7: a node without a children array is never indeterminate; a node
with one is indeterminate iff some child is itself indeterminate or two
children have different derived checked values. -/
theorem c7_isIndeterminate_characterization (strict : Bool) (nm cm anc : List Nat)
    (n : TNode) :
    (n.hasList = false → isIndetCore strict nm cm anc n = false) ∧
    (n.hasList = true →
      (isIndetCore strict nm cm anc n = true ↔
        (∃ c ∈ n.kidsList, isIndetCore strict nm cm (n.value :: anc) c = true) ∨
        (∃ c1 ∈ n.kidsList, ∃ c2 ∈ n.kidsList,
          isCheckedCore strict nm cm (n.value :: anc) c1 ≠
            isCheckedCore strict nm cm (n.value :: anc) c2))) := by
  cases n with
  | mk m hL u cs =>
    constructor
    · intro hl
      simp only [TNode.hasList] at hl
      rw [isIndetCore_mk, hl]
      simp
    · intro hl
      simp only [TNode.hasList] at hl
      subst hl
      simp only [TNode.kidsList, TNode.value, TNode.meta]
      rw [isIndetCore_mk, if_pos rfl]
      cases cs with
      | nil => simp [isIndetList]
      | cons c0 rest =>
        rw [isIndetList_cons_none]
        by_cases hind0 : isIndetCore strict nm cm (m.value :: anc) c0 = true
        · simp only [hind0, if_true]
          constructor
          · intro
            exact Or.inl ⟨c0, List.mem_cons_self c0 rest, hind0⟩
          · intro
            trivial
        · rw [if_neg hind0, isIndetList_some_iff]
          constructor
          · rintro (⟨c, hc, h⟩ | ⟨c, hc, h⟩)
            · exact Or.inl ⟨c, List.mem_cons_of_mem c0 hc, h⟩
            · exact Or.inr ⟨c, List.mem_cons_of_mem c0 hc, c0,
                List.mem_cons_self c0 rest, h⟩
          · rintro (⟨c, hc, h⟩ | ⟨c1, h1, c2, h2, hne⟩)
            · rcases List.mem_cons.mp hc with rfl | hc'
              · exact absurd h hind0
              · exact Or.inl ⟨c, hc', h⟩
            · by_cases e1 : isCheckedCore strict nm cm (m.value :: anc) c1 =
                  isCheckedCore strict nm cm (m.value :: anc) c0
              · have e2 : isCheckedCore strict nm cm (m.value :: anc) c2 ≠
                    isCheckedCore strict nm cm (m.value :: anc) c0 := by
                  intro e2
                  exact hne (e1.trans e2.symm)
                rcases List.mem_cons.mp h2 with rfl | hc'
                · exact absurd rfl e2
                · exact Or.inr ⟨c2, hc', e2⟩
              · rcases List.mem_cons.mp h1 with rfl | hc'
                · exact absurd rfl e1
                · exact Or.inr ⟨c1, hc', e1⟩

def nodeC7 : TNode :=
  TNode.mk ⟨1, false, false, false⟩ true false
    [TNode.mk ⟨2, false, false, false⟩ false false [],
     TNode.mk ⟨3, false, false, false⟩ false false []]

/-- C7 witness: a parent with exactly two children of which exactly one
is checked is indeterminate and not checked. -/
theorem c7_witness :
    isIndetCore false [1, 2, 3] [2] [] nodeC7 = true ∧
    isCheckedCore false [1, 2, 3] [2] [] nodeC7 = false := by
  constructor
  · exact ((c7_isIndeterminate_characterization false [1, 2, 3] [2] [] nodeC7).2
      rfl).mpr
      (Or.inr ⟨TNode.mk ⟨2, false, false, false⟩ false false [],
        List.Mem.head _,
        TNode.mk ⟨3, false, false, false⟩ false false [],
        List.Mem.tail _ (List.Mem.head _), by decide⟩)
  · decide

/-! ### Claim C2 -/

theorem foldl_mdel_false_of_mem {l m : List Nat} {x : Nat} (h : x ∈ l) :
    mget (l.foldl mdel m) x = false := by
  cases hx : mget (l.foldl mdel m) x
  · rfl
  · exact absurd h (foldl_mdel_mem.mp hx).2

theorem foldl_mdel_eq_of_not_mem {l m : List Nat} {x : Nat} (h : x ∉ l) :
    mget (l.foldl mdel m) x = mget m x := by
  cases hx : mget m x
  · cases hy : mget (l.foldl mdel m) x
    · rfl
    · have := (foldl_mdel_mem.mp hy).1
      rw [hx] at this
      exact this.symm
  · exact foldl_mdel_mem.mpr ⟨hx, h⟩

theorem foldl_mset_true_of_mem {l m : List Nat} {x : Nat} (h : x ∈ l) :
    mget (l.foldl mset m) x = true :=
  foldl_mset_mem.mpr (Or.inr h)

/-- C2: in non-strict mode, a `setChecked` whose guard passes (checkable
node, desired value differing from the current derived state) rewrites
the map so that every identity of the node's subtree carries the desired
value and every ancestor's explicit entry is removed; when the guard
fails the map is returned untouched.  The subtree/ancestor disjointness
hypothesis is the structural well-formedness of a tree (a node is never
its own ancestor). -/
theorem c2_setChecked_nonstrict (cfg : TreeConfig) (nm m : List Nat) (n : TNode)
    (anc : List Nat) (checked : Bool)
    (hstrict : cfg.checkStrictly = false)
    (hdisj : ∀ w ∈ walkValues n, w ∉ anc) :
    ((isCheckableQ cfg n = true ∧
        checked ≠ isCheckedCore cfg.checkStrictly nm m anc n) →
      (∀ w ∈ walkValues n, mget (setCheckedMapCore cfg nm m n anc checked) w = checked) ∧
      (∀ a ∈ anc, mget (setCheckedMapCore cfg nm m n anc checked) a = false)) ∧
    ((isCheckableQ cfg n = false ∨
        checked = isCheckedCore cfg.checkStrictly nm m anc n) →
      setCheckedMapCore cfg nm m n anc checked = m) := by
  constructor
  · rintro ⟨hck, hne⟩
    unfold setCheckedMapCore
    rw [if_pos (by simp only [Bool.and_eq_true, decide_eq_true_eq]; exact ⟨hck, hne⟩),
      hstrict]
    simp only [Bool.false_eq_true, if_false]
    constructor
    · intro w hw
      rw [foldl_mdel_eq_of_not_mem (hdisj w hw)]
      cases checked
      · show mget ((walkValues n).foldl (fun acc x => mdel acc x) m) w = false
        exact foldl_mdel_false_of_mem hw
      · show mget ((walkValues n).foldl (fun acc x => mset acc x) m) w = true
        exact foldl_mset_true_of_mem hw
    · intro a ha
      exact foldl_mdel_false_of_mem ha
  · intro hg
    unfold setCheckedMapCore
    rw [if_neg]
    simp only [Bool.and_eq_true, decide_eq_true_eq, not_and]
    intro hck
    rcases hg with hg | hg
    · rw [hg] at hck
      exact absurd hck (by simp)
    · intro hne
      exact hne hg

def cfgC2 : TreeConfig :=
  ⟨false, false, false, false, true, false, false, fun _ => false, false⟩

def nodeC2 : TNode := TNode.mk ⟨2, false, false, false⟩ false false []

/-- C2 witness: checking a checkable leaf (identity 2) under ancestor 1
writes the leaf's entry and leaves the ancestor's entry absent. -/
theorem c2_witness :
    mget (setCheckedMapCore cfgC2 [1, 2] [] nodeC2 [1] true) 2 = true ∧
    mget (setCheckedMapCore cfgC2 [1, 2] [] nodeC2 [1] true) 1 = false := by
  have h := (c2_setChecked_nonstrict cfgC2 [1, 2] [] nodeC2 [1] true rfl
    (by decide)).1 ⟨by decide, by decide⟩
  exact ⟨h.1 2 (by decide), h.2 1 (by decide)⟩

/-! ### Claim C5 -/

theorem expandStep_keep_true (cfg : TreeConfig) (roots : List TNode) (m : List Nat)
    (pp : TNode × Option TNode) (x : Nat)
    (hx : mget m x = true) (hsib : x ∉ expandSibVals roots pp) :
    mget (expandStep cfg roots m pp) x = true := by
  unfold expandStep
  dsimp only
  by_cases hv : x = pp.1.value
  · rw [hv]
    exact mget_mset_self
  · rw [mget_mset_of_ne hv]
    split
    · rw [foldl_mdel_eq_of_not_mem hsib]
      exact hx
    · exact hx

theorem expandStep_keep_false (cfg : TreeConfig) (roots : List TNode) (m : List Nat)
    (pp : TNode × Option TNode) (x : Nat)
    (hx : mget m x = false) (hne : pp.1.value ≠ x) :
    mget (expandStep cfg roots m pp) x = false := by
  unfold expandStep
  dsimp only
  rw [mget_mset_of_ne (Ne.symm hne)]
  split
  · cases hy : mget ((expandSibVals roots pp).foldl mdel m) x
    · rfl
    · have := (foldl_mdel_mem.mp hy).1
      rw [hx] at this
      exact this.symm
  · exact hx

theorem foldl_expandStep_keep_true (cfg : TreeConfig) (roots : List TNode)
    (l : List (TNode × Option TNode)) (m : List Nat) (x : Nat)
    (hx : mget m x = true)
    (hl : ∀ qq ∈ l, x ∉ expandSibVals roots qq) :
    mget (l.foldl (fun acc pp => expandStep cfg roots acc pp) m) x = true := by
  induction l generalizing m with
  | nil => exact hx
  | cons q t ih =>
    exact ih _ (expandStep_keep_true cfg roots m q x hx (hl q (List.mem_cons_self q t)))
      (fun qq hq => hl qq (List.mem_cons_of_mem q hq))

theorem foldl_expandStep_keep_false (cfg : TreeConfig) (roots : List TNode)
    (l : List (TNode × Option TNode)) (m : List Nat) (x : Nat)
    (hx : mget m x = false)
    (hl : ∀ qq ∈ l, qq.1.value ≠ x) :
    mget (l.foldl (fun acc pp => expandStep cfg roots acc pp) m) x = false := by
  induction l generalizing m with
  | nil => exact hx
  | cons q t ih =>
    exact ih _ (expandStep_keep_false cfg roots m q x hx (hl q (List.mem_cons_self q t)))
      (fun qq hq => hl qq (List.mem_cons_of_mem q hq))

/-- C5 (amended): during an expansion, each candidate whose *governing*
mutex flag is enabled — its parent's `isExpandMutex()` when it has a
parent, else the store-wide `config.expandMutex` (the candidate's own
per-node flag is NOT consulted for a root-level candidate) — has all its
siblings' entries removed before its own entry is added; provided later
candidates neither re-add one of those siblings nor sweep the candidate
away (the case for a well-formed tree with distinct identities), the
final map contains the candidate and none of its siblings. -/
theorem c5_setExpanded_mutex (cfg : TreeConfig) (roots path : List TNode) (m : List Nat)
    (pre post : List (TNode × Option TNode)) (pp : TNode × Option TNode)
    (hc : candsOf cfg path = pre ++ pp :: post)
    (hmux : govMutexOf cfg pp = true)
    (hkeep : ∀ qq ∈ post, pp.1.value ∉ expandSibVals roots qq)
    (hnoadd : ∀ qq ∈ post, ∀ s ∈ expandSibVals roots pp, s ≠ pp.1.value →
      qq.1.value ≠ s) :
    mget (setExpandedMapOp cfg roots path true m) pp.1.value = true ∧
    (∀ s ∈ expandSibVals roots pp, s ≠ pp.1.value →
      mget (setExpandedMapOp cfg roots path true m) s = false) := by
  rcases hrev : (pathPairs none path).reverse with _ | ⟨sp, rest⟩
  · unfold candsOf at hc
    rw [hrev] at hc
    exact absurd hc.symm (by simp)
  · unfold setExpandedMapOp
    rw [hrev]
    dsimp only
    rw [if_pos rfl, hc, List.foldl_append, List.foldl_cons]
    constructor
    · apply foldl_expandStep_keep_true
      · unfold expandStep
        dsimp only
        exact mget_mset_self
      · exact hkeep
    · intro s hs hsne
      apply foldl_expandStep_keep_false
      · unfold expandStep
        dsimp only
        rw [mget_mset_of_ne hsne, if_pos hmux]
        exact foldl_mdel_false_of_mem hs
      · intro qq hq
        exact hnoadd qq hq s hs hsne

def cfgC5 : TreeConfig :=
  ⟨false, false, false, false, false, false, false, fun _ => false, false⟩

def nodeC5 : TNode := TNode.mk ⟨2, false, false, true⟩ false false []

def rootsC5 : List TNode :=
  [TNode.mk ⟨1, false, false, false⟩ false false [], nodeC5]

/-- C5 counterexample: a root-level candidate (identity 2) whose OWN
`expandMutex` flag is set while `config.expandMutex` is off.  The claim
says the candidate's own flag governs for a root-level node, so the
already-expanded sibling 1 should be removed; the code consults only the
store-wide flag and keeps sibling 1 in the map. -/
theorem c5_counterexample :
    isExpandMutexQ cfgC5 nodeC5 = true ∧
    mget (setExpandedMapOp cfgC5 rootsC5 [nodeC5] true [1]) 1 = true := by decide

def nodeC5B : TNode := TNode.mk ⟨2, false, false, false⟩ false false []

def nodeC5P : TNode :=
  TNode.mk ⟨10, false, false, true⟩ true false
    [TNode.mk ⟨1, false, false, false⟩ false false [], nodeC5B,
     TNode.mk ⟨3, false, false, false⟩ false false []]

/-- C5 witness: three siblings under a parent with `expandMutex` set;
expanding sibling 2 while sibling 1 is expanded leaves 1 absent and 2
present. -/
theorem c5_witness :
    mget (setExpandedMapOp cfgC5 [nodeC5P] [nodeC5P, nodeC5B] true [10, 1]) 2 = true ∧
    mget (setExpandedMapOp cfgC5 [nodeC5P] [nodeC5P, nodeC5B] true [10, 1]) 1 = false := by
  have h := c5_setExpanded_mutex cfgC5 [nodeC5P] [nodeC5P, nodeC5B] [10, 1]
    [] [] (nodeC5B, some nodeC5P) rfl (by decide) (by simp) (by simp)
  exact ⟨h.1, h.2 1 (by decide) (by decide)⟩

/-! ### Claims C4 and C9 -/

/-- Project the store observable after a call, whether it returned
normally or threw. -/
def exceptStore : Except Store Store → Store
  | .ok s => s
  | .error s => s

/-- Did the call terminate by throwing? -/
def isThrown : Except Store Store → Bool
  | .ok _ => false
  | .error _ => true

/-- C4 (amended): `appendTo` is a guaranteed no-op (state returned
unchanged) when the target parent is a *strict* descendant of the node —
the guard walks the target parent's ancestor chain looking for the
node's identity, which never catches the target parent being the node
itself. -/
theorem c4_appendTo_descendant_guard (cfg : TreeConfig) (st : Store) (selfV pV : Nat)
    (index : Option Nat) (ppath : List TNode) (pNode : TNode) (pRevParents : List TNode)
    (hfind : findPathList pV st.children = some ppath)
    (hrev : ppath.reverse = pNode :: pRevParents)
    (hanc : (pRevParents.map TNode.value).contains selfV = true) :
    appendToOp cfg st selfV pV index = Except.ok st := by
  unfold appendToOp
  rw [hfind]
  dsimp only
  rw [hrev]
  dsimp only
  rw [if_pos hanc]

def cfgC4 : TreeConfig :=
  ⟨false, false, false, false, false, false, false, fun _ => false, false⟩

def stC4 : Store :=
  ⟨[TNode.mk ⟨1, false, false, false⟩ false false [],
    TNode.mk ⟨2, false, false, false⟩ false false []],
   [1, 2], [], [], [], [], [], [], [], []⟩

/-- C4 counterexample: `appendTo` with the target parent being the node
itself.  The guard walks only the parent's ancestor chain, so `p = n`
slips through: the node is `remove()`d (the node index loses identity 1),
then linked under itself, and the subsequent `walk()` recurses on the
cycle until the stack overflows.  The call therefore throws with the
maps already mutated — not the claimed unchanged-state no-op. -/
theorem c4_counterexample :
    isThrown (appendToOp cfgC4 stC4 1 1 none) = true ∧
    (exceptStore (appendToOp cfgC4 stC4 1 1 none)).nodeMap = [2] ∧
    stC4.nodeMap = [1, 2] := by decide

def nodeC4c : TNode := TNode.mk ⟨3, false, false, false⟩ false false []

def nodeC4p : TNode := TNode.mk ⟨2, false, false, false⟩ true false [nodeC4c]

def nodeC4r : TNode := TNode.mk ⟨1, false, false, false⟩ true false [nodeC4p]

def stC4w : Store := ⟨[nodeC4r], [1, 2, 3], [], [], [], [], [], [], [], []⟩

/-- C4 witness: moving node 1 under its strict descendant 3 is refused
with the store unchanged. -/
theorem c4_witness : appendToOp cfgC4 stC4w 1 3 none = Except.ok stC4w :=
  c4_appendTo_descendant_guard cfgC4 stC4w 1 3 none
    [nodeC4r, nodeC4p, nodeC4c] nodeC4c [nodeC4p, nodeC4r] rfl rfl (by decide)

def cfgC9 : TreeConfig :=
  ⟨false, false, false, false, false, false, false, fun _ => false, false⟩

def stC9 : Store :=
  ⟨[TNode.mk ⟨1, false, false, false⟩ true false [],
    TNode.mk ⟨2, false, false, false⟩ false false []],
   [1, 2], [], [], [], [], [], [], [], []⟩

/-- C9: evaluating the code at the claim's own highlighted input — a
target parent whose children list is an empty array, with an index
supplied.  The original-position guard reads
`parentNode.children[targetIndex]` (`undefined`) and dereferences
`.value` on it: a TypeError, modelled as a thrown exception carrying the
(untouched) store — not the claimed silent no-op. -/
theorem c9_appendTo_empty_children_throws :
    appendToOp cfgC9 stC9 2 1 (some 0) = Except.error stC9 ∧
    isThrown (appendToOp cfgC9 stC9 2 1 (some 0)) = true :=
  ⟨rfl, by decide⟩

/-! ### Claim C3 -/

theorem foldl_cleanOp_children (l : List Nat) (s : Store) :
    (l.foldl cleanOp s).children = s.children := by
  induction l generalizing s with
  | nil => rfl
  | cons a t ih => rw [List.foldl_cons, ih]; rfl

theorem foldl_cleanOp_checkedMap (l : List Nat) (s : Store) :
    (l.foldl cleanOp s).checkedMap = l.foldl mdel s.checkedMap := by
  induction l generalizing s with
  | nil => rfl
  | cons a t ih => rw [List.foldl_cons, List.foldl_cons, ih]; rfl

theorem foldl_cleanOp_expandedMap (l : List Nat) (s : Store) :
    (l.foldl cleanOp s).expandedMap = l.foldl mdel s.expandedMap := by
  induction l generalizing s with
  | nil => rfl
  | cons a t ih => rw [List.foldl_cons, List.foldl_cons, ih]; rfl

theorem foldl_cleanOp_activedMap (l : List Nat) (s : Store) :
    (l.foldl cleanOp s).activedMap = l.foldl mdel s.activedMap := by
  induction l generalizing s with
  | nil => rfl
  | cons a t ih => rw [List.foldl_cons, List.foldl_cons, ih]; rfl

theorem foldl_cleanOp_nodeMap (l : List Nat) (s : Store) :
    (l.foldl cleanOp s).nodeMap = l.foldl mdel s.nodeMap := by
  induction l generalizing s with
  | nil => rfl
  | cons a t ih => rw [List.foldl_cons, List.foldl_cons, ih]; rfl

theorem foldl_cleanOp_filterMap (l : List Nat) (s : Store) :
    (l.foldl cleanOp s).filterMap = s.filterMap := by
  induction l generalizing s with
  | nil => rfl
  | cons a t ih => rw [List.foldl_cons, ih]; rfl

theorem foldl_cleanOp_vmIsFirstM (l : List Nat) (s : Store) :
    (l.foldl cleanOp s).vmIsFirstM = s.vmIsFirstM := by
  induction l generalizing s with
  | nil => rfl
  | cons a t ih => rw [List.foldl_cons, ih]; rfl

theorem foldl_cleanOp_vmIsLastM (l : List Nat) (s : Store) :
    (l.foldl cleanOp s).vmIsLastM = s.vmIsLastM := by
  induction l generalizing s with
  | nil => rfl
  | cons a t ih => rw [List.foldl_cons, ih]; rfl

theorem foldl_updateNode_children (cfg : TreeConfig) (l : List Nat) (s : Store) :
    (l.foldl (fun s w => updateNodeOp cfg s w) s).children = s.children := by
  induction l generalizing s with
  | nil => rfl
  | cons a t ih => rw [List.foldl_cons, ih, updateNodeOp_children]

theorem foldl_updateNode_nodeMap (cfg : TreeConfig) (l : List Nat) (s : Store) :
    (l.foldl (fun s w => updateNodeOp cfg s w) s).nodeMap = s.nodeMap := by
  induction l generalizing s with
  | nil => rfl
  | cons a t ih => rw [List.foldl_cons, ih, updateNodeOp_nodeMap]

theorem foldl_updateNode_checkedMap (cfg : TreeConfig) (l : List Nat) (s : Store) :
    (l.foldl (fun s w => updateNodeOp cfg s w) s).checkedMap = s.checkedMap := by
  induction l generalizing s with
  | nil => rfl
  | cons a t ih => rw [List.foldl_cons, ih, updateNodeOp_checkedMap]

theorem foldl_updateNode_expandedMap (cfg : TreeConfig) (l : List Nat) (s : Store) :
    (l.foldl (fun s w => updateNodeOp cfg s w) s).expandedMap = s.expandedMap := by
  induction l generalizing s with
  | nil => rfl
  | cons a t ih => rw [List.foldl_cons, ih, updateNodeOp_expandedMap]

theorem foldl_updateNode_activedMap (cfg : TreeConfig) (l : List Nat) (s : Store) :
    (l.foldl (fun s w => updateNodeOp cfg s w) s).activedMap = s.activedMap := by
  induction l generalizing s with
  | nil => rfl
  | cons a t ih => rw [List.foldl_cons, ih, updateNodeOp_activedMap]

theorem foldl_updateNode_vmIsFirstM_of_notmem (cfg : TreeConfig) (l : List Nat)
    (s : Store) (x : Nat) (hx : x ∉ l) :
    fget (l.foldl (fun s w => updateNodeOp cfg s w) s).vmIsFirstM x =
      fget s.vmIsFirstM x := by
  induction l generalizing s with
  | nil => rfl
  | cons a t ih =>
    rw [List.foldl_cons, ih _ (fun h => hx (List.mem_cons_of_mem a h)),
      updateNodeOp_vmIsFirstM_of_ne]
    exact fun h => hx (h ▸ List.mem_cons_self a t)

theorem foldl_updateNode_vmIsLastM_of_notmem (cfg : TreeConfig) (l : List Nat)
    (s : Store) (x : Nat) (hx : x ∉ l) :
    fget (l.foldl (fun s w => updateNodeOp cfg s w) s).vmIsLastM x =
      fget s.vmIsLastM x := by
  induction l generalizing s with
  | nil => rfl
  | cons a t ih =>
    rw [List.foldl_cons, ih _ (fun h => hx (List.mem_cons_of_mem a h)),
      updateNodeOp_vmIsLastM_of_ne]
    exact fun h => hx (h ▸ List.mem_cons_self a t)

theorem foldl_updateNode_vmIsFirstM_mem (cfg : TreeConfig) (l : List Nat)
    (s : Store) (x : Nat) (hx : x ∈ l) (hnd : l.Nodup)
    (hloc : (locate s.children x).isSome = true) :
    fget (l.foldl (fun s w => updateNodeOp cfg s w) s).vmIsFirstM x =
      vmIsFirstCalc s.children x := by
  induction l generalizing s with
  | nil => exact absurd hx (List.not_mem_nil x)
  | cons a t ih =>
    rcases List.mem_cons.mp hx with rfl | hxt
    · have hat : x ∉ t := (List.nodup_cons.mp hnd).1
      rw [List.foldl_cons, foldl_updateNode_vmIsFirstM_of_notmem cfg t _ x hat,
        updateNodeOp_vmIsFirstM_self cfg s x (Option.ne_none_iff_isSome.mpr hloc)]
    · rw [List.foldl_cons,
        ih (updateNodeOp cfg s a) hxt (List.nodup_cons.mp hnd).2
          (by rw [updateNodeOp_children]; exact hloc),
        updateNodeOp_children]

theorem foldl_updateNode_vmIsLastM_mem (cfg : TreeConfig) (l : List Nat)
    (s : Store) (x : Nat) (hx : x ∈ l) (hnd : l.Nodup)
    (hloc : (locate s.children x).isSome = true) :
    fget (l.foldl (fun s w => updateNodeOp cfg s w) s).vmIsLastM x =
      vmIsLastCalc s.children x := by
  induction l generalizing s with
  | nil => exact absurd hx (List.not_mem_nil x)
  | cons a t ih =>
    rcases List.mem_cons.mp hx with rfl | hxt
    · have hat : x ∉ t := (List.nodup_cons.mp hnd).1
      rw [List.foldl_cons, foldl_updateNode_vmIsLastM_of_notmem cfg t _ x hat,
        updateNodeOp_vmIsLastM_self cfg s x (Option.ne_none_iff_isSome.mpr hloc)]
    · rw [List.foldl_cons,
        ih (updateNodeOp cfg s a) hxt (List.nodup_cons.mp hnd).2
          (by rw [updateNodeOp_children]; exact hloc),
        updateNodeOp_children]

theorem parentStep_children (cfg : TreeConfig) (s : Store) (a : Nat) :
    (updateCheckedOp cfg (updateNodeOp cfg s a) a).children = s.children := by
  rw [updateCheckedOp_children, updateNodeOp_children]

theorem foldl_parentStep_children (cfg : TreeConfig) (l : List Nat) (s : Store) :
    (l.foldl (fun s a => updateCheckedOp cfg (updateNodeOp cfg s a) a) s).children =
      s.children := by
  induction l generalizing s with
  | nil => rfl
  | cons a t ih => rw [List.foldl_cons, ih, parentStep_children]

theorem foldl_parentStep_nodeMap (cfg : TreeConfig) (l : List Nat) (s : Store) :
    (l.foldl (fun s a => updateCheckedOp cfg (updateNodeOp cfg s a) a) s).nodeMap =
      s.nodeMap := by
  induction l generalizing s with
  | nil => rfl
  | cons a t ih => rw [List.foldl_cons, ih, updateCheckedOp_nodeMap, updateNodeOp_nodeMap]

theorem foldl_parentStep_expandedMap (cfg : TreeConfig) (l : List Nat) (s : Store) :
    (l.foldl (fun s a => updateCheckedOp cfg (updateNodeOp cfg s a) a) s).expandedMap =
      s.expandedMap := by
  induction l generalizing s with
  | nil => rfl
  | cons a t ih =>
    rw [List.foldl_cons, ih, updateCheckedOp_expandedMap, updateNodeOp_expandedMap]

theorem foldl_parentStep_activedMap (cfg : TreeConfig) (l : List Nat) (s : Store) :
    (l.foldl (fun s a => updateCheckedOp cfg (updateNodeOp cfg s a) a) s).activedMap =
      s.activedMap := by
  induction l generalizing s with
  | nil => rfl
  | cons a t ih =>
    rw [List.foldl_cons, ih, updateCheckedOp_activedMap, updateNodeOp_activedMap]

theorem foldl_parentStep_checkedMap_of_notmem (cfg : TreeConfig) (l : List Nat)
    (s : Store) (x : Nat) (hx : x ∉ l) :
    mget (l.foldl (fun s a => updateCheckedOp cfg (updateNodeOp cfg s a) a) s).checkedMap
      x = mget s.checkedMap x := by
  induction l generalizing s with
  | nil => rfl
  | cons a t ih =>
    rw [List.foldl_cons, ih _ (fun h => hx (List.mem_cons_of_mem a h)),
      updateCheckedOp_checkedMap_of_ne _ _ _ _
        (fun h => hx (by rw [h]; exact List.mem_cons_self a t)),
      updateNodeOp_checkedMap]

theorem foldl_parentStep_vmIsFirstM_of_notmem (cfg : TreeConfig) (l : List Nat)
    (s : Store) (x : Nat) (hx : x ∉ l) :
    fget (l.foldl (fun s a => updateCheckedOp cfg (updateNodeOp cfg s a) a) s).vmIsFirstM
      x = fget s.vmIsFirstM x := by
  induction l generalizing s with
  | nil => rfl
  | cons a t ih =>
    rw [List.foldl_cons, ih _ (fun h => hx (List.mem_cons_of_mem a h)),
      updateCheckedOp_vmIsFirstM,
      updateNodeOp_vmIsFirstM_of_ne _ _ _ _
        (fun h => hx (by rw [h]; exact List.mem_cons_self a t))]

theorem foldl_parentStep_vmIsLastM_of_notmem (cfg : TreeConfig) (l : List Nat)
    (s : Store) (x : Nat) (hx : x ∉ l) :
    fget (l.foldl (fun s a => updateCheckedOp cfg (updateNodeOp cfg s a) a) s).vmIsLastM
      x = fget s.vmIsLastM x := by
  induction l generalizing s with
  | nil => rfl
  | cons a t ih =>
    rw [List.foldl_cons, ih _ (fun h => hx (List.mem_cons_of_mem a h)),
      updateCheckedOp_vmIsLastM,
      updateNodeOp_vmIsLastM_of_ne _ _ _ _
        (fun h => hx (by rw [h]; exact List.mem_cons_self a t))]

/-- C3 (amended): after `remove(node)`, no identity of the node's subtree
remains in the checked, expanded or activated maps nor in the node index
(the filter-matched map is NOT cleaned by `clean()`); the remaining
siblings' `vmIsFirst`/`vmIsLast` cached flags are recomputed against the
post-splice structure; and the cached flags on the removed node objects
themselves are untouched.  The disjointness/uniqueness hypotheses are the
structural well-formedness of a tree with distinct identities, and the
locatability hypothesis states that a surviving sibling is still attached
after the splice. -/
theorem c3_remove_cleanup (cfg : TreeConfig) (st : Store) (v : Nat)
    (path : List TNode) (n : TNode) (revParents : List TNode)
    (hfind : findPathList v st.children = some path)
    (hrev : path.reverse = n :: revParents)
    (hSubAnc : ∀ w ∈ walkValues n, w ∉ revParents.map TNode.value)
    (hSubSib : ∀ w ∈ walkValues n,
      w ∉ ((siblingListOf st.children revParents).filter
        (fun s => s.value ≠ v)).map TNode.value)
    (hSibAnc : ∀ s ∈ ((siblingListOf st.children revParents).filter
        (fun s => s.value ≠ v)).map TNode.value, s ∉ revParents.map TNode.value)
    (hSibNodup : (((siblingListOf st.children revParents).filter
        (fun s => s.value ≠ v)).map TNode.value).Nodup)
    (hSibLoc : ∀ s ∈ ((siblingListOf st.children revParents).filter
        (fun s => s.value ≠ v)).map TNode.value,
      (locate (removeFromTreeList v st.children) s).isSome = true) :
    (∀ w ∈ walkValues n,
      mget (removeOp cfg st v).checkedMap w = false ∧
      mget (removeOp cfg st v).expandedMap w = false ∧
      mget (removeOp cfg st v).activedMap w = false ∧
      mget (removeOp cfg st v).nodeMap w = false) ∧
    (∀ s ∈ ((siblingListOf st.children revParents).filter
        (fun s => s.value ≠ v)).map TNode.value,
      fget (removeOp cfg st v).vmIsFirstM s =
        vmIsFirstCalc (removeFromTreeList v st.children) s ∧
      fget (removeOp cfg st v).vmIsLastM s =
        vmIsLastCalc (removeFromTreeList v st.children) s) ∧
    (∀ w ∈ walkValues n,
      fget (removeOp cfg st v).vmIsFirstM w = fget st.vmIsFirstM w ∧
      fget (removeOp cfg st v).vmIsLastM w = fget st.vmIsLastM w) := by
  have hrem : removeOp cfg st v =
      updateParentsOp cfg
        ((((siblingListOf st.children revParents).filter
            (fun s => s.value ≠ v)).map TNode.value).foldl
          (fun s w => updateNodeOp cfg s w)
          ((walkValues n).foldl cleanOp
            { st with children := removeFromTreeList v st.children }))
        (revParents.map TNode.value) := by
    unfold removeOp
    rw [hfind]
    dsimp only
    rw [hrev]
  rw [hrem]
  unfold updateParentsOp
  have hst1c : ((walkValues n).foldl cleanOp
      { st with children := removeFromTreeList v st.children }).children =
      removeFromTreeList v st.children := by
    rw [foldl_cleanOp_children]
  have hst2c : ((((siblingListOf st.children revParents).filter
      (fun s => s.value ≠ v)).map TNode.value).foldl
        (fun s w => updateNodeOp cfg s w)
        ((walkValues n).foldl cleanOp
          { st with children := removeFromTreeList v st.children })).children =
      removeFromTreeList v st.children := by
    rw [foldl_updateNode_children, hst1c]
  refine ⟨?_, ?_, ?_⟩
  · intro w hw
    refine ⟨?_, ?_, ?_, ?_⟩
    · rw [foldl_parentStep_checkedMap_of_notmem cfg _ _ w (hSubAnc w hw),
        foldl_updateNode_checkedMap, foldl_cleanOp_checkedMap]
      exact foldl_mdel_false_of_mem hw
    · rw [foldl_parentStep_expandedMap, foldl_updateNode_expandedMap,
        foldl_cleanOp_expandedMap]
      exact foldl_mdel_false_of_mem hw
    · rw [foldl_parentStep_activedMap, foldl_updateNode_activedMap,
        foldl_cleanOp_activedMap]
      exact foldl_mdel_false_of_mem hw
    · rw [foldl_parentStep_nodeMap, foldl_updateNode_nodeMap, foldl_cleanOp_nodeMap]
      exact foldl_mdel_false_of_mem hw
  · intro s hs
    constructor
    · rw [foldl_parentStep_vmIsFirstM_of_notmem cfg _ _ s (hSibAnc s hs),
        foldl_updateNode_vmIsFirstM_mem cfg _ _ s hs hSibNodup
          (by rw [hst1c]; exact hSibLoc s hs),
        hst1c]
    · rw [foldl_parentStep_vmIsLastM_of_notmem cfg _ _ s (hSibAnc s hs),
        foldl_updateNode_vmIsLastM_mem cfg _ _ s hs hSibNodup
          (by rw [hst1c]; exact hSibLoc s hs),
        hst1c]
  · intro w hw
    constructor
    · rw [foldl_parentStep_vmIsFirstM_of_notmem cfg _ _ w (hSubAnc w hw),
        foldl_updateNode_vmIsFirstM_of_notmem cfg _ _ w (hSubSib w hw),
        foldl_cleanOp_vmIsFirstM]
    · rw [foldl_parentStep_vmIsLastM_of_notmem cfg _ _ w (hSubAnc w hw),
        foldl_updateNode_vmIsLastM_of_notmem cfg _ _ w (hSubSib w hw),
        foldl_cleanOp_vmIsLastM]

def cfgC3 : TreeConfig :=
  ⟨false, false, false, false, false, false, true, fun x => x == 2, false⟩

def stC3 : Store :=
  ⟨[TNode.mk ⟨1, false, false, false⟩ true false
      [TNode.mk ⟨2, false, false, false⟩ false false []]],
   [1, 2], [2], [2], [2], [2], [], [], [], []⟩

/-- C3 counterexample: node 2 sits in all four state maps (it matches the
configured filter, so its identity was recorded in the filter-matched
map).  After `remove(2)` its identity is gone from the checked, expanded
and activated maps and the node index, but `clean()` never touches the
filter-matched map: identity 2 is still present there, refuting the
claim's "none of the four state maps". -/
theorem c3_counterexample :
    mget (removeOp cfgC3 stC3 2).filterMap 2 = true ∧
    mget (removeOp cfgC3 stC3 2).checkedMap 2 = false ∧
    mget (removeOp cfgC3 stC3 2).expandedMap 2 = false ∧
    mget (removeOp cfgC3 stC3 2).activedMap 2 = false ∧
    mget (removeOp cfgC3 stC3 2).nodeMap 2 = false := by decide

def nodeC3a : TNode := TNode.mk ⟨2, false, false, false⟩ false false []

def nodeC3b : TNode := TNode.mk ⟨3, false, false, false⟩ false false []

def nodeC3p : TNode := TNode.mk ⟨1, false, false, false⟩ true false [nodeC3a, nodeC3b]

def stC3w : Store :=
  ⟨[nodeC3p], [1, 2, 3], [2], [2], [2], [], [(2, true)], [], [], []⟩

/-- C3 witness: removing node 2 (first child of 1) clears its entries
from the three cleaned maps and the index, recomputes the surviving
sibling 3's `vmIsFirst` flag (it becomes the first child), and leaves the
removed node's own cached flag untouched. -/
theorem c3_witness :
    mget (removeOp cfgC3 stC3w 2).nodeMap 2 = false ∧
    fget (removeOp cfgC3 stC3w 2).vmIsFirstM 3 =
      vmIsFirstCalc (removeFromTreeList 2 stC3w.children) 3 ∧
    fget (removeOp cfgC3 stC3w 2).vmIsFirstM 2 = fget stC3w.vmIsFirstM 2 := by
  have h := c3_remove_cleanup cfgC3 stC3w 2 [nodeC3p, nodeC3a] nodeC3a [nodeC3p]
    rfl rfl (by decide) (by decide) (by decide) (by decide) (by decide)
  exact ⟨((h.1 2 (by decide)).2.2.2), (h.2.1 3 (by decide)).1, (h.2.2 2 (by decide)).1⟩

/-! ### Claim C10 -/

mutual
theorem isCheckedCore_mono (strict : Bool) (nm cm cmBig : List Nat) (anc : List Nat)
    (hsub : ∀ x, mget cm x = true → mget cmBig x = true) :
    (n : TNode) → isCheckedCore strict nm cm anc n = true →
      isCheckedCore strict nm cmBig anc n = true
  | .mk m hL u cs, h => by
    rw [isCheckedCore_mk] at h
    rw [isCheckedCore_mk]
    split at h
    · next hnm =>
      rw [if_pos hnm]
      split at h
      · next hcm => rw [if_pos (hsub _ hcm)]
      · next hcm =>
        by_cases hcmB : mget cmBig m.value = true
        · rw [if_pos hcmB]
        · rw [if_neg hcmB]
          split at h
          · next hb =>
            rw [if_pos hb]
            exact allCheckedList_mono strict nm cm cmBig (m.value :: anc) hsub cs h
          · next hb =>
            rw [if_neg hb]
            split at h
            · next hstr =>
              rw [if_pos hstr]
              rcases List.any_eq_true.mp h with ⟨a, ha, hga⟩
              exact List.any_eq_true.mpr ⟨a, ha, hsub _ hga⟩
            · next => exact absurd h (by simp)
    · next => exact absurd h (by simp)
theorem allCheckedList_mono (strict : Bool) (nm cm cmBig : List Nat) (anc : List Nat)
    (hsub : ∀ x, mget cm x = true → mget cmBig x = true) :
    (l : List TNode) → allCheckedList strict nm cm anc l = true →
      allCheckedList strict nm cmBig anc l = true
  | [], _ => rfl
  | t :: ts, h => by
    simp only [allCheckedList, Bool.and_eq_true] at h
    simp only [allCheckedList, Bool.and_eq_true]
    exact ⟨isCheckedCore_mono strict nm cm cmBig anc hsub t h.1,
      allCheckedList_mono strict nm cm cmBig anc hsub ts h.2⟩
end

theorem updateCheckedOp_writes (cfg : TreeConfig) (s : Store) (v : Nat)
    (n : TNode) (revParents : List TNode)
    (hloc : locate s.children v = some (n, revParents))
    (hck : isCheckableQ cfg n = true)
    (hch : isCheckedCore cfg.checkStrictly s.nodeMap s.checkedMap
      (revParents.map TNode.value) n = true) :
    mget (updateCheckedOp cfg s v).checkedMap v = true := by
  unfold updateCheckedOp
  rw [hloc]
  dsimp only
  rw [if_pos hck]
  dsimp only
  rw [if_pos hch]
  exact mget_mset_self

theorem updateCheckedOp_nowrite (cfg : TreeConfig) (s : Store) (v : Nat)
    (n : TNode) (revParents : List TNode)
    (hloc : locate s.children v = some (n, revParents))
    (hch : isCheckedCore cfg.checkStrictly s.nodeMap s.checkedMap
      (revParents.map TNode.value) n = false) :
    (updateCheckedOp cfg s v).checkedMap = s.checkedMap := by
  unfold updateCheckedOp
  rw [hloc]
  dsimp only
  split
  · dsimp only
    rw [if_neg (by rw [hch]; simp)]
  · rfl

theorem foldl_updateCheckedOp_children (cfg : TreeConfig) (l : List Nat) (s : Store) :
    (l.foldl (fun s w => updateCheckedOp cfg s w) s).children = s.children := by
  induction l generalizing s with
  | nil => rfl
  | cons a t ih => rw [List.foldl_cons, ih, updateCheckedOp_children]

theorem foldl_updateCheckedOp_nodeMap (cfg : TreeConfig) (l : List Nat) (s : Store) :
    (l.foldl (fun s w => updateCheckedOp cfg s w) s).nodeMap = s.nodeMap := by
  induction l generalizing s with
  | nil => rfl
  | cons a t ih => rw [List.foldl_cons, ih, updateCheckedOp_nodeMap]

theorem foldl_updateCheckedOp_checkedMap_mono (cfg : TreeConfig) (l : List Nat)
    (s : Store) (x : Nat) (hx : mget s.checkedMap x = true) :
    mget (l.foldl (fun s w => updateCheckedOp cfg s w) s).checkedMap x = true := by
  induction l generalizing s with
  | nil => exact hx
  | cons a t ih =>
    rw [List.foldl_cons]
    exact ih _ (updateCheckedOp_checkedMap_mono cfg s a x hx)

theorem isChecked_of_children (nm cm anc : List Nat) (n : TNode)
    (hnm : mget nm n.value = true)
    (hl : (n.hasList && n.kidsList.length > 0) = true)
    (hall : ∀ k ∈ n.kidsList, isCheckedCore false nm cm (n.value :: anc) k = true) :
    isCheckedCore false nm cm anc n = true := by
  cases n with
  | mk m hL u cs =>
    simp only [TNode.value, TNode.meta, TNode.hasList, TNode.kidsList] at hnm hl hall
    rw [isCheckedCore_mk, if_pos hnm]
    by_cases hcm : mget cm m.value = true
    · rw [if_pos hcm]
    · rw [if_neg hcm, if_pos (by simp only [Bool.not_false, Bool.and_true]; exact hl),
        allCheckedList_eq_all]
      exact List.all_eq_true.mpr hall

/-- C10: for a checkable node, `updateChecked()` writes the identity into
the live checked map whenever the derived checked value is true and
leaves the map untouched when it is false; consequently a committed
non-strict `setChecked(child, true, {directly:true})` — which first
removes every ancestor's explicit entry — re-creates the parent's
explicit entry through the propagation pass over the related closure as
soon as all of the parent's children have become checked. -/
theorem c10_updateChecked_and_propagation (cfg : TreeConfig) (st : Store) :
    (∀ v n revParents,
      locate st.children v = some (n, revParents) →
      isCheckableQ cfg n = true →
      ((isCheckedCore cfg.checkStrictly st.nodeMap st.checkedMap
          (revParents.map TNode.value) n = true →
        mget (updateCheckedOp cfg st v).checkedMap v = true) ∧
       (isCheckedCore cfg.checkStrictly st.nodeMap st.checkedMap
          (revParents.map TNode.value) n = false →
        (updateCheckedOp cfg st v).checkedMap = st.checkedMap))) ∧
    (∀ c cpath cn pN restParents,
      cfg.checkStrictly = false →
      findPathList c st.children = some cpath →
      cpath.reverse = cn :: pN :: restParents →
      locate st.children pN.value = some (pN, restParents) →
      isCheckableQ cfg pN = true →
      mget st.nodeMap pN.value = true →
      (pN.hasList && pN.kidsList.length > 0) = true →
      (∀ k ∈ pN.kidsList,
        isCheckedCore false st.nodeMap
          (setCheckedMapCore cfg st.nodeMap st.checkedMap cn
            ((pN :: restParents).map TNode.value) true)
          (pN.value :: restParents.map TNode.value) k = true) →
      mget (setCheckedOp cfg st c true true).checkedMap pN.value = true) := by
  constructor
  · intro v n revParents hloc hck
    exact ⟨fun hch => updateCheckedOp_writes cfg st v n revParents hloc hck hch,
      fun hch => updateCheckedOp_nowrite cfg st v n revParents hloc hch⟩
  · intro c cpath cn pN restParents hstrict hfind hrevc hploc hpck hnm hkids hall
    unfold setCheckedOp
    rw [hfind]
    dsimp only
    rw [hrevc]
    dsimp only
    rw [if_pos rfl, if_neg (by rw [hstrict]; simp)]
    unfold getRelatedNodes
    rw [hfind]
    dsimp only
    rw [hrevc]
    dsimp only
    simp only [List.map_cons]
    rw [List.foldl_append, List.foldl_cons]
    apply foldl_updateCheckedOp_checkedMap_mono
    have hsub : ∀ x,
        mget (setCheckedMapCore cfg st.nodeMap st.checkedMap cn
          ((pN :: restParents).map TNode.value) true) x = true →
        mget ((walkValues cn).foldl (fun s w => updateCheckedOp cfg s w)
          { st with checkedMap := (setCheckedMapCore cfg st.nodeMap st.checkedMap cn
            ((pN :: restParents).map TNode.value) true) }).checkedMap x = true := by
      intro x hx
      exact foldl_updateCheckedOp_checkedMap_mono cfg _ _ x hx
    apply updateCheckedOp_writes cfg _ pN.value pN restParents
    · rw [foldl_updateCheckedOp_children]
      exact hploc
    · exact hpck
    · rw [hstrict, foldl_updateCheckedOp_nodeMap]
      apply isChecked_of_children st.nodeMap _ (restParents.map TNode.value) pN hnm hkids
      intro k hk
      exact isCheckedCore_mono false st.nodeMap _ _ (pN.value :: restParents.map TNode.value)
        hsub k (hall k hk)

def cfgC10 : TreeConfig :=
  ⟨false, false, false, false, true, false, false, fun _ => false, false⟩

def nodeC10a : TNode := TNode.mk ⟨2, false, false, false⟩ false false []

def nodeC10b : TNode := TNode.mk ⟨3, false, false, false⟩ false false []

def nodeC10p : TNode := TNode.mk ⟨1, false, false, false⟩ true false [nodeC10a, nodeC10b]

def stC10 : Store := ⟨[nodeC10p], [1, 2, 3], [3], [], [], [], [], [], [], []⟩

/-- C10 witness: node 3 is explicitly checked, so `updateChecked()` on it
(re)writes its entry; and a committed `setChecked(2, true, directly)` —
which deletes the parent's explicit entry in the rewrite — re-creates the
parent 1's entry through propagation once both children 2 and 3 are
checked. -/
theorem c10_witness :
    mget (updateCheckedOp cfgC10 stC10 3).checkedMap 3 = true ∧
    mget (setCheckedOp cfgC10 stC10 2 true true).checkedMap 1 = true := by
  have h := c10_updateChecked_and_propagation cfgC10 stC10
  constructor
  · exact (h.1 3 nodeC10b [nodeC10p] rfl (by decide)).1 (by decide)
  · exact h.2 2 [nodeC10p, nodeC10a] nodeC10a nodeC10p [] rfl rfl rfl rfl
      (by decide) (by decide) (by decide) (by decide)
